import Mathlib

/-
Formal model of the TerraMaster fan controller (src/fancontrol.cpp).

Modelling conventions for the shallow embedding:
* C `double` arithmetic is modelled by exact rational arithmetic (ℚ);
  the clamping and comparison logic proved here is order-theoretic and does
  not depend on rounding.
* C `int` division (`cputemp_sum / cputemp_count`) truncates toward zero and
  is modelled by `Int.tdiv`.
* `static_cast<int>` of a double truncates toward zero and is modelled by
  `cTrunc`.
* `uint8_t` stores are modelled by reduction mod 256 on ℤ.
* A temperature probe whose pipeline yields no parsable output produces the
  value 0 via `atoi`; a probe result is therefore an `Option ℤ`, `none`
  standing for a failed probe, read back as 0.
-/

namespace Fancontrol

/-- Runtime configuration: the CLI-settable globals of fancontrol.cpp
(setpoint, pwminit, interval, overheat, pwmmin, kp, ki, imax, kd,
cputemp_max_values). -/
structure Config where
  setpoint : ℤ
  pwminit : ℤ
  interval : ℤ
  overheat : ℤ
  pwmmin : ℤ
  kp : ℚ
  ki : ℚ
  imax : ℚ
  kd : ℚ
  cpuN : ℕ

/-- The constant `const static int pwmmax = 255` of fancontrol.cpp. -/
def pwmmax : ℤ := 255

/-- The default values of the CLI-settable globals. -/
def defaultConfig : Config := ⟨37, 128, 10, 45, 80, 50, 1/2, 255, 0, 10⟩

/-- C truncation toward zero, as performed by `static_cast<int>` on a double. -/
def cTrunc (q : ℚ) : ℤ := if 0 ≤ q then ⌊q⌋ else ⌈q⌉

/-- The mutable PID state threaded by reference through
`calculate_new_pwm`: the `integral` and `prev_error` doubles. -/
structure PIDState where
  integral : ℚ
  prev_error : ℚ

/-- Model of `calculate_new_pwm` (fancontrol.cpp lines 134-166): accumulate
and clamp the integral, form the derivative, update `prev_error`, compute
`pwminit + kp*error + ki*integral + kd*derivative`, clamp to
`[pwmmin, pwmmax]`, and truncate to an int.  Returns the new PWM together
with the updated PID state. -/
def calculate_new_pwm (cfg : Config) (error timediff : ℚ) (s : PIDState) :
    ℤ × PIDState :=
  let integralAcc := s.integral + error * timediff
  let integral :=
    if integralAcc > cfg.imax then cfg.imax
    else if integralAcc < -cfg.imax then -cfg.imax
    else integralAcc
  let derivative := (error - s.prev_error) / timediff
  let newPWMd := (cfg.pwminit : ℚ) + cfg.kp * error + cfg.ki * integral
      + cfg.kd * derivative
  let clamped :=
    if newPWMd > (pwmmax : ℚ) then (pwmmax : ℚ)
    else if newPWMd < (cfg.pwmmin : ℚ) then (cfg.pwmmin : ℚ)
    else newPWMd
  (cTrunc clamped, ⟨integral, error⟩)

/-- Run a sequence of PID steps, each given as an `(error, timediff)` pair;
returns the list of PWM outputs and the final PID state. -/
def pidRun (cfg : Config) : List (ℚ × ℚ) → PIDState → List ℤ × PIDState
  | [], s => ([], s)
  | (e, dt) :: rest, s =>
    let r := calculate_new_pwm cfg e dt s
    let rr := pidRun cfg rest r.2
    (r.1 :: rr.1, rr.2)

/-- Trace of PID states after each step of a sequence of `(error, timediff)`
inputs. -/
def pidTrace (cfg : Config) : List (ℚ × ℚ) → PIDState → List PIDState
  | [], _ => []
  | (e, dt) :: rest, s =>
    let r := calculate_new_pwm cfg e dt s
    r.2 :: pidTrace cfg rest r.2

/-- The rolling CPU-temperature buffer: the `cputemp_values` array together
with the circular index, the stored-value count, and the running sum
(fancontrol.cpp lines 281-284). -/
structure RollState where
  values : List ℤ
  index : ℕ
  count : ℕ
  sum : ℤ

/-- Buffer state at startup: `calloc` zero-fills the array. -/
def rollInit (N : ℕ) : RollState := ⟨List.replicate N 0, 0, 0, 0⟩

/-- One insertion into the rolling buffer (fancontrol.cpp lines 360-372):
while not yet full, append at position `count` and bump `count`; once full,
overwrite the slot at `index`; in both cases maintain the running sum and
advance the circular index. -/
def rollInsert (N : ℕ) (s : RollState) (x : ℤ) : RollState :=
  if s.count < N then
    ⟨s.values.set s.count x, (s.index + 1) % N, s.count + 1, s.sum + x⟩
  else
    ⟨s.values.set s.index x, (s.index + 1) % N, s.count,
      s.sum - s.values.getD s.index 0 + x⟩

/-- Insert a whole sample sequence into an initially empty buffer. -/
def rollRun (N : ℕ) (xs : List ℤ) : RollState :=
  xs.foldl (rollInsert N) (rollInit N)

/-- The rolling average `cputemp_sum / cputemp_count` (C integer division,
fancontrol.cpp line 375). -/
def rollAvg (s : RollState) : ℤ := s.sum.tdiv (s.count : ℤ)

/-- Reading one device probe: `none` (failed probe) is read back as 0 by
`atoi` on the empty string (fancontrol.cpp lines 328-335). -/
def probeRead (r : Option ℤ) : ℤ := r.getD 0

/-- Per-iteration device maximum (fancontrol.cpp lines 319 and 324-337):
`maxtemp` starts at 0 and each reading replaces it when strictly larger. -/
def deviceMax (rs : List (Option ℤ)) : ℤ :=
  rs.foldl (fun m r => if probeRead r > m then probeRead r else m) 0

/-- Combination of the device maximum with the CPU rolling average
(fancontrol.cpp line 377): `if (cpu_avg_temp - 20 > maxtemp) maxtemp =
cpu_avg_temp - 20`. -/
def combineTemp (devMax cpuAvg : ℤ) : ℤ :=
  if cpuAvg - 20 > devMax then cpuAvg - 20 else devMax

/-- State carried across control-loop iterations: PID state, the `pwm`
byte, the monotonic `lasttime` (in nanoseconds), the rolling buffer, and
the cached `cpu_avg_temp`. -/
structure LoopState where
  integral : ℚ
  prev_error : ℚ
  pwm : ℤ
  lasttime : ℤ
  roll : RollState
  cpu_avg_temp : ℤ

/-- External inputs consumed by one loop iteration: the per-device probe
results, the CPU probe result (`none` when the pipe cannot be opened), and
the current monotonic time in nanoseconds. -/
structure IterInput where
  driveTemps : List (Option ℤ)
  cpuTemp : Option ℤ
  curtime : ℤ

/-- One iteration of the control loop body (fancontrol.cpp lines 317-438):
compute the device maximum; if the CPU probe succeeded, insert the reading
into the rolling buffer, recompute the average, and fold it (minus 20)
into `maxtemp`; compute `timediff`; if `timediff == 0`, restart without
touching PID state, `pwm`, `lasttime`, or the hardware; otherwise update
`lasttime`, run the PID step on `error = maxtemp - setpoint`, store the
PWM byte, and write it to EC registers 0x6b and 0x73.  Returns the next
state and the list of `(register, value)` hardware writes performed. -/
def iterate (cfg : Config) (s : LoopState) (inp : IterInput) :
    LoopState × List (ℕ × ℤ) :=
  let devMax := deviceMax inp.driveTemps
  let cpuStep :=
    match inp.cpuTemp with
    | none => (s.roll, s.cpu_avg_temp, devMax)
    | some c =>
      let r := rollInsert cfg.cpuN s.roll c
      let avg := rollAvg r
      (r, avg, combineTemp devMax avg)
  let roll1 := cpuStep.1
  let cpuavg1 := cpuStep.2.1
  let maxtemp := cpuStep.2.2
  let timediff : ℚ := ((inp.curtime - s.lasttime : ℤ) : ℚ) / 1000000000
  if timediff = 0 then
    ({ s with roll := roll1, cpu_avg_temp := cpuavg1 }, [])
  else
    let error : ℚ := ((maxtemp - cfg.setpoint : ℤ) : ℚ)
    let r := calculate_new_pwm cfg error timediff ⟨s.integral, s.prev_error⟩
    let pwm1 := r.1 % 256
    (⟨r.2.integral, r.2.prev_error, pwm1, inp.curtime, roll1, cpuavg1⟩,
      [(0x6b, pwm1), (0x73, pwm1)])

/-- Run the control loop over a list of per-iteration inputs, collecting
each iteration's hardware writes and the final state. -/
def runLoop (cfg : Config) (s : LoopState) :
    List IterInput → List (List (ℕ × ℤ)) × LoopState
  | [] => ([], s)
  | inp :: rest =>
    let r := iterate cfg s inp
    let rr := runLoop cfg r.1 rest
    (r.2 :: rr.1, rr.2)

/-- The EC writes performed at startup (fancontrol.cpp lines 264-270): the
initial PWM byte to 0x6b and 0x73, then software-mode zero to 0x16 and
0x17. -/
def initWrites (cfg : Config) : List (ℕ × ℤ) :=
  [(0x6b, cfg.pwminit % 256), (0x73, cfg.pwminit % 256), (0x16, 0), (0x17, 0)]

/-- Writing at position `i` leaves the first `i` elements unchanged. -/
theorem take_set_eq (l : List ℤ) (i : ℕ) (x : ℤ) :
    (l.set i x).take i = l.take i := by
  induction l generalizing i with
  | nil => simp
  | cons a t ih =>
    cases i with
    | zero => simp
    | succ n => simp [ih]

/-- Dropping up to a written position exposes the written value followed by
the untouched tail. -/
theorem drop_set_eq (l : List ℤ) (i : ℕ) (x : ℤ) (h : i < l.length) :
    (l.set i x).drop i = x :: l.drop (i + 1) := by
  induction l generalizing i with
  | nil => simp at h
  | cons a t ih =>
    cases i with
    | zero => simp
    | succ n => simpa using ih n (by simpa using h)

/-- Writing at position `i` changes the list sum by the difference between
the new and the old entry. -/
theorem sum_set_eq (l : List ℤ) (i : ℕ) (x : ℤ) (h : i < l.length) :
    (l.set i x).sum = l.sum - l.getD i 0 + x := by
  induction l generalizing i with
  | nil => simp at h
  | cons a t ih =>
    cases i with
    | zero => simp; ring
    | succ n =>
      simp only [List.set_cons_succ, List.sum_cons, List.getD_cons_succ]
      rw [ih n (by simpa using h)]
      ring

/-- The entry at position `i` is the head of the tail dropped at `i`. -/
theorem getD_of_drop (l : List ℤ) (i : ℕ) (y : ℤ) (rest : List ℤ)
    (h : l.drop i = y :: rest) : l.getD i 0 = y := by
  induction l generalizing i with
  | nil => simp at h
  | cons a t ih =>
    cases i with
    | zero =>
      simp only [List.drop_zero, List.cons.injEq] at h
      simp [h.1]
    | succ n =>
      simp only [List.drop_succ_cons] at h
      simpa using ih n h

/-- Truncation toward zero can only move a value toward zero, so it
respects any integer upper bound of the value. -/
theorem cTrunc_le {q : ℚ} {m : ℤ} (h : q ≤ (m : ℚ)) : cTrunc q ≤ m := by
  unfold cTrunc
  split_ifs with h0
  · exact_mod_cast le_trans (Int.floor_le q) h
  · exact Int.ceil_le.mpr h

/-- Truncation toward zero respects any integer lower bound of the value. -/
theorem le_cTrunc {q : ℚ} {n : ℤ} (h : (n : ℚ) ≤ q) : n ≤ cTrunc q := by
  unfold cTrunc
  split_ifs with h0
  · exact Int.le_floor.mpr h
  · exact_mod_cast le_trans h (Int.le_ceil q)

/-- The clamp-then-truncate tail of `calculate_new_pwm` lands in
`[lo, hi]` whenever `lo ≤ hi`. -/
theorem clamp_cTrunc_range (lo hi : ℤ) (h : lo ≤ hi) (q : ℚ) :
    lo ≤ cTrunc (if q > (hi : ℚ) then (hi : ℚ)
                 else if q < (lo : ℚ) then (lo : ℚ) else q) ∧
    cTrunc (if q > (hi : ℚ) then (hi : ℚ)
            else if q < (lo : ℚ) then (lo : ℚ) else q) ≤ hi := by
  have hQ : (lo : ℚ) ≤ (hi : ℚ) := by exact_mod_cast h
  split_ifs with h1 h2
  · exact ⟨le_cTrunc hQ, cTrunc_le le_rfl⟩
  · exact ⟨le_cTrunc le_rfl, cTrunc_le hQ⟩
  · push_neg at h1 h2
    exact ⟨le_cTrunc h2, cTrunc_le h1⟩

/-- A single `calculate_new_pwm` call returns a PWM in `[pwmmin, pwmmax]`
provided `pwmmin ≤ pwmmax`. -/
theorem calc_pwm_in_range (cfg : Config) (hmin : cfg.pwmmin ≤ pwmmax)
    (e dt : ℚ) (s : PIDState) :
    cfg.pwmmin ≤ (calculate_new_pwm cfg e dt s).1 ∧
    (calculate_new_pwm cfg e dt s).1 ≤ pwmmax :=
  clamp_cTrunc_range cfg.pwmmin pwmmax hmin _

/-- A single `calculate_new_pwm` call leaves the integral in
`[-imax, imax]` provided `0 ≤ imax`. -/
theorem calc_integral_in_range (cfg : Config) (him : 0 ≤ cfg.imax)
    (e dt : ℚ) (s : PIDState) :
    -cfg.imax ≤ (calculate_new_pwm cfg e dt s).2.integral ∧
    (calculate_new_pwm cfg e dt s).2.integral ≤ cfg.imax := by
  have hrfl : (calculate_new_pwm cfg e dt s).2.integral =
      (if s.integral + e * dt > cfg.imax then cfg.imax
       else if s.integral + e * dt < -cfg.imax then -cfg.imax
       else s.integral + e * dt) := rfl
  rw [hrfl]
  split_ifs with h1 h2
  · exact ⟨by linarith, le_rfl⟩
  · exact ⟨le_rfl, by linarith⟩
  · push_neg at h1 h2
    exact ⟨h2, h1⟩

/-- Claim C1: over any sequence of PID steps with strictly positive dt and
`pwmmin ≤ pwmmax = 255`, every PWM integer returned lies in
`[pwmmin, pwmmax]`, for all error inputs. -/
theorem pid_outputs_in_range (cfg : Config) (inputs : List (ℚ × ℚ))
    (s : PIDState) (hmin : cfg.pwmmin ≤ pwmmax)
    (hdt : ∀ p ∈ inputs, 0 < p.2) :
    ∀ o ∈ (pidRun cfg inputs s).1, cfg.pwmmin ≤ o ∧ o ≤ pwmmax := by
  induction inputs generalizing s with
  | nil => intro o ho; simp [pidRun] at ho
  | cons p rest ih =>
    obtain ⟨e, dt⟩ := p
    intro o ho
    simp only [pidRun, List.mem_cons] at ho
    rcases ho with rfl | ho
    · exact calc_pwm_in_range cfg hmin e dt s
    · exact ih _ (fun q hq => hdt q (List.mem_cons_of_mem _ hq)) o ho

/-- Witness for `pid_outputs_in_range` at a concrete one-step run. -/
theorem pid_outputs_in_range_witness :
    defaultConfig.pwmmin ≤ pwmmax ∧ (0 : ℚ) < 10 ∧
    ∀ o ∈ (pidRun defaultConfig [((3 : ℚ), (10 : ℚ))] ⟨0, 0⟩).1,
      defaultConfig.pwmmin ≤ o ∧ o ≤ pwmmax := by
  refine ⟨by decide, by norm_num, ?_⟩
  exact pid_outputs_in_range defaultConfig [((3 : ℚ), (10 : ℚ))] ⟨0, 0⟩
    (by decide) (by intro p hp; simp at hp; rw [hp]; norm_num)

/-- Claim C2: over any sequence of PID steps with strictly positive dt and
`0 ≤ imax`, the retained integral is in `[-imax, imax]` after every
step. -/
theorem pid_integral_in_range (cfg : Config) (inputs : List (ℚ × ℚ))
    (s : PIDState) (him : 0 ≤ cfg.imax) (hdt : ∀ p ∈ inputs, 0 < p.2) :
    ∀ t ∈ pidTrace cfg inputs s,
      -cfg.imax ≤ t.integral ∧ t.integral ≤ cfg.imax := by
  induction inputs generalizing s with
  | nil => intro t ht; simp [pidTrace] at ht
  | cons p rest ih =>
    obtain ⟨e, dt⟩ := p
    intro t ht
    simp only [pidTrace, List.mem_cons] at ht
    rcases ht with rfl | ht
    · exact calc_integral_in_range cfg him e dt s
    · exact ih _ (fun q hq => hdt q (List.mem_cons_of_mem _ hq)) t ht

/-- Witness for `pid_integral_in_range` at a concrete one-step run. -/
theorem pid_integral_in_range_witness :
    (0 : ℚ) ≤ defaultConfig.imax ∧
    ∀ t ∈ pidTrace defaultConfig [((3 : ℚ), (10 : ℚ))] ⟨0, 0⟩,
      -defaultConfig.imax ≤ t.integral ∧ t.integral ≤ defaultConfig.imax := by
  refine ⟨by norm_num [defaultConfig], ?_⟩
  exact pid_integral_in_range defaultConfig [((3 : ℚ), (10 : ℚ))] ⟨0, 0⟩
    (by norm_num [defaultConfig])
    (by intro p hp; simp at hp; rw [hp]; norm_num)

/-- Claim C4: the aggregator combination equals
`max(deviceMax, cpuAverage - 20)` on non-negative inputs. -/
theorem combineTemp_eq_max (devMax cpuAvg : ℤ) (_h1 : 0 ≤ devMax)
    (_h2 : 0 ≤ cpuAvg) : combineTemp devMax cpuAvg = max devMax (cpuAvg - 20) := by
  unfold combineTemp
  rw [max_def]
  split_ifs <;> omega

/-- Witness for `combineTemp_eq_max` at the scenario-1 inputs. -/
theorem combineTemp_eq_max_witness :
    (0 : ℤ) ≤ 40 ∧ (0 : ℤ) ≤ 50 ∧ combineTemp 40 50 = max 40 (50 - 20) :=
  ⟨by decide, by decide, combineTemp_eq_max 40 50 (by decide) (by decide)⟩

/-- A failed probe reads back as 0 and a successful one as its value, so
the fold computing `maxtemp` over an accumulator that is already
non-negative agrees with folding `max` over the successful readings. -/
theorem deviceMax_fold_aux (rs : List (Option ℤ)) (m : ℤ) (hm : 0 ≤ m) :
    rs.foldl (fun a r => if probeRead r > a then probeRead r else a) m =
      (rs.filterMap id).foldl (fun a t => max a t) m := by
  induction rs generalizing m with
  | nil => rfl
  | cons r rest ih =>
    cases r with
    | none =>
      have hstep : (if probeRead none > m then probeRead none else m) = m := by
        simp only [probeRead, Option.getD_none]
        rw [if_neg (by omega)]
      simp only [List.foldl_cons, List.filterMap_cons_none, hstep]
      exact ih m hm
    | some t =>
      have hstep : (if probeRead (some t) > m then probeRead (some t) else m)
          = max m t := by
        simp only [probeRead, Option.getD_some]
        rw [max_def]
        split_ifs <;> omega
      simp only [List.foldl_cons, List.filterMap_cons_some, hstep]
      exact ih (max m t) (le_trans hm (le_max_left m t))

/-- Claim C7: the per-iteration device maximum treats failed probes as 0,
so it equals the fold of `max` over the successful readings started at
0. -/
theorem deviceMax_eq_max_of_successes (rs : List (Option ℤ)) :
    deviceMax rs = (rs.filterMap id).foldl (fun a t => max a t) 0 :=
  deviceMax_fold_aux rs 0 le_rfl

/-- Claim C10: after any insertion into the rolling buffer with capacity
at least 1, the stored-value count (the divisor of the rolling-average
division) is at least 1, so `cputemp_sum / cputemp_count` never divides
by zero. -/
theorem rollInsert_count_pos (N : ℕ) (hN : 1 ≤ N) (s : RollState) (x : ℤ) :
    1 ≤ (rollInsert N s x).count := by
  unfold rollInsert
  split_ifs with h
  · simp
  · simp only
    omega

/-- Witness for `rollInsert_count_pos` at the default capacity. -/
theorem rollInsert_count_pos_witness :
    (1 : ℕ) ≤ 10 ∧ 1 ≤ (rollInsert 10 (rollInit 10) 42).count :=
  ⟨by decide, rollInsert_count_pos 10 (by decide) (rollInit 10) 42⟩

/-- Claim C5: scenario 1 — with the default configuration (setpoint 37,
kp 50, ki 0.5, kd 0, imax 255, pwminit 128, pwmmin 80), one device at 40
and CPU average 50 give effective temperature `max(40, 30) = 40`, error 3,
and with dt = 10 the step yields integral 30 and a PWM clamped to 255. -/
theorem scenario1 :
    combineTemp 40 50 = 40 ∧
    (40 : ℤ) - defaultConfig.setpoint = 3 ∧
    (calculate_new_pwm defaultConfig 3 10 ⟨0, 0⟩).2.integral = 30 ∧
    (calculate_new_pwm defaultConfig 3 10 ⟨0, 0⟩).1 = 255 := by
  refine ⟨by decide, by decide, ?_, ?_⟩
  · norm_num [calculate_new_pwm, defaultConfig]
  · norm_num [calculate_new_pwm, defaultConfig, cTrunc, pwmmax]

/-- Full characterisation of the rolling buffer after inserting any sample
sequence into an initially empty buffer of capacity `N ≥ 1`: the array
keeps length `N`, the count is `min k N`, the circular index is `k % N`,
reading the array cyclically from the index gives the zero padding
followed by the most recent `min k N` samples, and the running sum always
equals the array sum. -/
theorem rollRun_invariant (N : ℕ) (hN : 1 ≤ N) (xs : List ℤ) :
    (rollRun N xs).values.length = N ∧
    (rollRun N xs).count = min xs.length N ∧
    (rollRun N xs).index = xs.length % N ∧
    (rollRun N xs).values.rotate ((rollRun N xs).index) =
      List.replicate (N - min xs.length N) 0
        ++ xs.drop (xs.length - min xs.length N) ∧
    (rollRun N xs).sum = (rollRun N xs).values.sum := by
  induction xs using List.reverseRecOn with
  | nil =>
    refine ⟨by simp [rollRun, rollInit], by simp [rollRun, rollInit],
      by simp [rollRun, rollInit], ?_, by simp [rollRun, rollInit]⟩
    simp [rollRun, rollInit]
  | append_singleton xs x ih =>
    obtain ⟨hlen, hcount, hidx, hrot, hsum⟩ := ih
    have hrun : rollRun N (xs ++ [x]) = rollInsert N (rollRun N xs) x := by
      simp [rollRun, List.foldl_append]
    set s := rollRun N xs with hs
    set k := xs.length with hkdef
    have hlen1 : (xs ++ [x]).length = k + 1 := by simp [hkdef]
    by_cases hk : k < N
    · -- filling phase: write at position count = k
      have hminek : min k N = k := Nat.min_eq_left (le_of_lt hk)
      have hcount' : s.count = k := by rw [hcount, hminek]
      have hidx' : s.index = k := by rw [hidx, Nat.mod_eq_of_lt hk]
      have hins : rollInsert N s x =
          ⟨s.values.set k x, (k + 1) % N, k + 1, s.sum + x⟩ := by
        unfold rollInsert
        rw [if_pos (by rw [hcount']; exact hk)]
        rw [hcount', hidx']
      rw [hidx', hminek, Nat.sub_self, List.drop_zero,
        List.rotate_eq_drop_append_take (by rw [hlen]; exact le_of_lt hk)]
        at hrot
      obtain ⟨hdropk, htakek⟩ := List.append_inj hrot
        (by rw [List.length_drop, hlen, List.length_replicate])
      have hdropk' : s.values.drop k = 0 :: List.replicate (N - k - 1) 0 := by
        rw [hdropk]
        conv_lhs => rw [show N - k = (N - k - 1) + 1 from by omega,
          List.replicate_succ]
      have hdrop1 : s.values.drop (k + 1) = List.replicate (N - k - 1) 0 := by
        rw [← List.drop_drop, hdropk']
        simp
      rw [hrun, hins]
      dsimp only
      rw [hlen1]
      refine ⟨by simp [hlen], by rw [Nat.min_eq_left (by omega)], rfl, ?_, ?_⟩
      · -- rotate characterisation
        have hlen2 : (s.values.set k x).length = N := by simp [hlen]
        have eA : (s.values.set k x).rotate k
            = (x :: List.replicate (N - k - 1) 0) ++ xs := by
          rw [List.rotate_eq_drop_append_take (by rw [hlen2]; omega),
            drop_set_eq _ _ _ (by rw [hlen]; exact hk), take_set_eq,
            htakek, hdrop1]
        have eB : (s.values.set k x).rotate (k + 1)
            = (List.replicate (N - k - 1) 0 ++ xs) ++ [x] := by
          rw [← List.rotate_rotate, eA, List.cons_append,
            List.rotate_eq_drop_append_take (by simp)]
          simp only [List.drop_succ_cons, List.drop_zero,
            List.take_succ_cons, List.take_zero]
        rw [show (k + 1) % N = (k + 1) % (s.values.set k x).length from
            by rw [hlen2],
          List.rotate_mod, eB, Nat.min_eq_left (by omega : k + 1 ≤ N),
          Nat.sub_self, List.drop_zero, List.append_assoc,
          show N - (k + 1) = N - k - 1 from by omega]
      · -- running sum
        rw [sum_set_eq _ _ _ (by rw [hlen]; exact hk),
          getD_of_drop _ _ _ _ hdropk', hsum]
        ring
    · -- steady state: overwrite the slot at the circular index
      push_neg at hk
      have hmine : min k N = N := Nat.min_eq_right hk
      have hcount' : s.count = N := by rw [hcount, hmine]
      set j := k % N with hjdef
      have hj : j < N := Nat.mod_lt k (by omega)
      have hins : rollInsert N s x =
          ⟨s.values.set j x, (j + 1) % N, N,
            s.sum - s.values.getD j 0 + x⟩ := by
        unfold rollInsert
        rw [if_neg (by rw [hcount']; omega)]
        rw [hcount', hidx]
      rw [hidx, hmine, Nat.sub_self, List.replicate_zero, List.nil_append,
        List.rotate_eq_drop_append_take (by rw [hlen]; exact le_of_lt hj)]
        at hrot
      rw [hrun, hins]
      dsimp only
      rw [hlen1]
      refine ⟨by simp [hlen], by rw [Nat.min_eq_right (by omega)],
        by rw [hjdef]; exact Nat.mod_add_mod k N 1, ?_, ?_⟩
      · -- rotate characterisation
        have hlen2 : (s.values.set j x).length = N := by simp [hlen]
        have key : s.values.drop (j + 1) ++ s.values.take j
            = xs.drop (k + 1 - N) := by
          have h2 := congrArg (List.drop 1) hrot
          rw [List.drop_append_of_le_length
              (by rw [List.length_drop, hlen]; omega)] at h2
          rw [List.drop_drop, List.drop_drop] at h2
          rw [show k - N + 1 = k + 1 - N from by omega] at h2
          exact h2
        have eA : (s.values.set j x).rotate j
            = (x :: s.values.drop (j + 1)) ++ s.values.take j := by
          rw [List.rotate_eq_drop_append_take (by rw [hlen2]; omega),
            drop_set_eq _ _ _ (by rw [hlen]; exact hj), take_set_eq]
        have eB : (s.values.set j x).rotate (j + 1)
            = (s.values.drop (j + 1) ++ s.values.take j) ++ [x] := by
          rw [← List.rotate_rotate, eA, List.cons_append,
            List.rotate_eq_drop_append_take (by simp)]
          simp only [List.drop_succ_cons, List.drop_zero,
            List.take_succ_cons, List.take_zero]
        rw [show (j + 1) % N = (j + 1) % (s.values.set j x).length from
            by rw [hlen2],
          List.rotate_mod, eB, key, Nat.min_eq_right (by omega),
          Nat.sub_self, List.replicate_zero, List.nil_append,
          List.drop_append_of_le_length (by rw [← hkdef]; omega)]
      · -- running sum
        rw [sum_set_eq _ _ _ (by rw [hlen]; exact hj), hsum]

/-- Claim C3: rolling-buffer behaviour — after `k ≤ N` inserts the count
is `k` and the average is `sum / k` by integer division; after `N + m`
inserts the count is `N` and reading the buffer cyclically from the
circular index yields exactly the most recent `N` samples in order; and
the running sum equals the sum of the buffer contents after every
insert. -/
theorem rolling_buffer_spec (N : ℕ) (hN : 1 ≤ N) (xs : List ℤ) :
    (xs.length ≤ N →
      (rollRun N xs).count = xs.length ∧
      rollAvg (rollRun N xs) = (rollRun N xs).sum.tdiv (xs.length : ℤ)) ∧
    (N ≤ xs.length →
      (rollRun N xs).count = N ∧
      (rollRun N xs).values.rotate ((rollRun N xs).index) =
        xs.drop (xs.length - N)) ∧
    (rollRun N xs).sum = (rollRun N xs).values.sum := by
  obtain ⟨hlen, hcount, hidx, hrot, hsum⟩ := rollRun_invariant N hN xs
  refine ⟨fun h => ⟨?_, ?_⟩, fun h => ⟨?_, ?_⟩, hsum⟩
  · rw [hcount, Nat.min_eq_left h]
  · unfold rollAvg
    rw [hcount, Nat.min_eq_left h]
  · rw [hcount, Nat.min_eq_right h]
  · rw [Nat.min_eq_right h] at hrot
    simpa using hrot

/-- Witness for `rolling_buffer_spec`: capacity 2, samples 5, 7, 9 — the
buffer retains the two most recent samples 7, 9; also a one-sample run in
the filling phase. -/
theorem rolling_buffer_spec_witness :
    (1 : ℕ) ≤ 2 ∧
    (rollRun 2 [5, 7, 9]).count = 2 ∧
    (rollRun 2 [5, 7, 9]).values.rotate (rollRun 2 [5, 7, 9]).index
      = [7, 9] ∧
    (rollRun 2 [5, 7, 9]).sum = (rollRun 2 [5, 7, 9]).values.sum ∧
    (rollRun 2 [5]).count = 1 := by
  have h3 := rolling_buffer_spec 2 (by decide) [5, 7, 9]
  have h1 := rolling_buffer_spec 2 (by decide) [5]
  refine ⟨by decide, (h3.2.1 (by decide)).1, ?_, h3.2.2,
    (h1.1 (by decide)).1⟩
  rw [(h3.2.1 (by decide)).2]
  decide

/-- Claim C6: an iteration whose computed time delta is zero restarts
without modifying the PID state, the previous PWM value, the
last-sample timestamp, and performs no hardware write. -/
theorem iterate_dt_zero (cfg : Config) (s : LoopState) (inp : IterInput)
    (h : ((inp.curtime - s.lasttime : ℤ) : ℚ) / 1000000000 = 0) :
    (iterate cfg s inp).1.integral = s.integral ∧
    (iterate cfg s inp).1.prev_error = s.prev_error ∧
    (iterate cfg s inp).1.pwm = s.pwm ∧
    (iterate cfg s inp).1.lasttime = s.lasttime ∧
    (iterate cfg s inp).2 = [] := by
  unfold iterate
  simp only [h]
  simp

/-- Witness for `iterate_dt_zero` at a concrete skipped iteration. -/
theorem iterate_dt_zero_witness :
    (iterate defaultConfig ⟨0, 0, 128, 7, rollInit 10, 0⟩
        ⟨[some 40], some 50, 7⟩).1.integral = (0 : ℚ) ∧
    (iterate defaultConfig ⟨0, 0, 128, 7, rollInit 10, 0⟩
        ⟨[some 40], some 50, 7⟩).1.prev_error = (0 : ℚ) ∧
    (iterate defaultConfig ⟨0, 0, 128, 7, rollInit 10, 0⟩
        ⟨[some 40], some 50, 7⟩).1.pwm = 128 ∧
    (iterate defaultConfig ⟨0, 0, 128, 7, rollInit 10, 0⟩
        ⟨[some 40], some 50, 7⟩).1.lasttime = 7 ∧
    (iterate defaultConfig ⟨0, 0, 128, 7, rollInit 10, 0⟩
        ⟨[some 40], some 50, 7⟩).2 = [] :=
  iterate_dt_zero defaultConfig ⟨0, 0, 128, 7, rollInit 10, 0⟩
    ⟨[some 40], some 50, 7⟩ (by norm_num)

/-- Changing only the overheat threshold leaves a single iteration
unchanged, because the loop body never reads it. -/
theorem iterate_overheat_irrelevant (cfg : Config) (ov : ℤ) (s : LoopState)
    (inp : IterInput) :
    iterate { cfg with overheat := ov } s inp = iterate cfg s inp := rfl

/-- Claim C8: the overheat threshold is informational only — two runs of
the control loop differing only in the configured overheat value produce
identical hardware writes and states, and identical startup writes. -/
theorem overheat_noninterference (cfg : Config) (ov : ℤ) (s : LoopState)
    (inps : List IterInput) :
    runLoop { cfg with overheat := ov } s inps = runLoop cfg s inps ∧
    initWrites { cfg with overheat := ov } = initWrites cfg := by
  refine ⟨?_, rfl⟩
  induction inps generalizing s with
  | nil => rfl
  | cons inp rest ih =>
    simp only [runLoop, iterate_overheat_irrelevant]
    rw [ih]

/-- Claim C9: whenever an iteration reaches the hardware-write step it
writes one and the same PWM byte to both output registers 0x6b and 0x73,
and the startup sequence likewise writes the same initial byte to both. -/
theorem pwm_writes_paired (cfg : Config) (s : LoopState) (inp : IterInput) :
    ((iterate cfg s inp).2 = [] ∨
      ∃ v, (iterate cfg s inp).2 = [(0x6b, v), (0x73, v)]) ∧
    ∃ w, initWrites cfg = [(0x6b, w), (0x73, w), (0x16, 0), (0x17, 0)] := by
  refine ⟨?_, ⟨cfg.pwminit % 256, rfl⟩⟩
  unfold iterate
  dsimp only
  split_ifs with h
  · exact Or.inl rfl
  · exact Or.inr ⟨_, rfl⟩

end Fancontrol
